import Mathlib

set_option maxHeartbeats 1000000

/-!
Verification of the PCA9685 servo controller (`fastapi_app.py`, `servo_api.py`).

Shallow embedding conventions:
* Python floats are modelled as exact rationals `ℚ`.  All counterexample
  inputs are chosen so that the double-precision result is far from any
  rounding boundary, so the exact-rational value agrees with the float value.
* Python `int(x)` (truncation toward zero) is `pyInt`.
* The asyncio controller is modelled as an explicit state machine: a `Ctrl`
  record plus operations returning the next state and a list of observable
  events (bus writes tagged with whether the bus lock was held, warning
  logs, driver de-initialisations / re-initialisations, bus close).
* One resumption of a channel's move coroutine is one `taskStep`; asyncio
  delivers a requested cancellation at the next resumption, before any
  further user code (hence before any further bus write) runs, which is
  exactly what the `cancelRequested` branch of `taskStep` models.
-/

namespace ArmVirtual

/-- Python `int(x)` applied to a real number: truncation toward zero. -/
def pyInt (q : ℚ) : ℤ := if 0 ≤ q then ⌊q⌋ else ⌈q⌉

/-! ### Constants from `fastapi_app.py` -/

def MIN_US : ℚ := 500

def MID_US : ℚ := 1500

def MAX_US : ℚ := 2500

def MIN_DEG : ℚ := 0

def MAX_DEG : ℚ := 270

def CENTER_ANGLE : ℚ := MAX_DEG / 2

def SPEED_MIN_DPS : ℚ := 10

def SPEED_MAX_DPS : ℚ := 270

def SPEED_DEF_DPS : ℚ := 90

def PWM_FREQUENCY : ℚ := 50

/-- `fastapi_app.us_to_duty16`: `int((us / 1_000_000.0) * freq_hz * 65535.0)`
clamped by `max(0, min(65535, duty))`. -/
def us_to_duty16 (us freq_hz : ℚ) : ℤ :=
  let ticks : ℚ := 65535
  let duty := pyInt (us / 1000000 * freq_hz * ticks)
  max 0 (min 65535 duty)

/-- `servo_api.us_to_duty`: `int((us / 1_000_000.0) / period_s * 4096)` with
`period_s = 1.0 / freq`, clamped by `max(0, min(4095, duty))`. -/
def us_to_duty (us freq : ℚ) : ℤ :=
  let period_s : ℚ := 1 / freq
  let ticks : ℚ := 4096
  let duty := pyInt (us / 1000000 / period_s * ticks)
  max 0 (min 4095 duty)

/-- `fastapi_app.angle_to_us`: clamp the angle to `[MIN_DEG, max_deg]`, then map
linearly onto `[min_us, max_us]`. -/
def angle_to_us (angle_deg min_us max_us max_deg : ℚ) : ℚ :=
  let a := max MIN_DEG (min max_deg angle_deg)
  min_us + (max_us - min_us) * (a / max_deg)

/-- `fastapi_app.clamp_angle`. -/
def clamp_angle (angle : ℚ) : ℚ := max MIN_DEG (min MAX_DEG angle)

/-- Modelled from the spec: `pulseWidthToDutyValue(us, freqHz, resolution)`,
`duty = round(us / 1_000_000 × freqHz × resolution)` clamped to
`[0, resolution−1]`.  Kept separate from the source functions so the two can
be compared. -/
def pulseWidthToDutyValue_spec (us freq_hz : ℚ) (resolution : ℤ) : ℤ :=
  max 0 (min (resolution - 1) (round (us / 1000000 * freq_hz * (resolution : ℚ))))

/-- The composed conversion performed by `ServoController._write_angle_async`:
angle → pulse width (with the module's fixed bounds) → 16-bit duty. -/
def writeAngleDuty (freq angle : ℚ) : ℤ :=
  us_to_duty16 (angle_to_us angle MIN_US MAX_US MAX_DEG) freq

/-! ### Channel registry (`fastapi_app._build_channel_map`)

A Python dict layout is modelled as an association list with distinct keys;
`sorted(layout.keys())` is insertion sort on the keys. -/

def insertLayout (p : ℕ × List ℕ) : List (ℕ × List ℕ) → List (ℕ × List ℕ)
  | [] => [p]
  | q :: rest => if p.1 ≤ q.1 then p :: q :: rest else q :: insertLayout p rest

def sortLayout : List (ℕ × List ℕ) → List (ℕ × List ℕ)
  | [] => []
  | p :: rest => insertLayout p (sortLayout rest)

/-- The inner loop of `_build_channel_map`: assign consecutive logical ids to
one board's local channels, starting at `idx`. -/
def assignChannels (addr : ℕ) : List ℕ → ℕ → List (ℕ × (ℕ × ℕ))
  | [], _ => []
  | c :: cs, idx => (idx, (addr, c)) :: assignChannels addr cs (idx + 1)

/-- The outer loop of `_build_channel_map` over the address-sorted layout. -/
def buildLoop : List (ℕ × List ℕ) → ℕ → List (ℕ × (ℕ × ℕ))
  | [], _ => []
  | p :: rest, idx => assignChannels p.1 p.2 idx ++ buildLoop rest (idx + p.2.length)

/-- `fastapi_app._build_channel_map`: iterate board addresses in ascending
order, assign consecutive logical ids `0, 1, 2, …` to each
`(address, local channel)` pair. -/
def _build_channel_map (layout : List (ℕ × List ℕ)) : List (ℕ × (ℕ × ℕ)) :=
  buildLoop (sortLayout layout) 0

/-- `fastapi_app.BOARD_CHANNEL_LAYOUT`: `{0x40: range(4), 0x41: range(4)}`. -/
def BOARD_CHANNEL_LAYOUT : List (ℕ × List ℕ) := [(64, [0, 1, 2, 3]), (65, [0, 1, 2, 3])]

/-- `fastapi_app.CHANNEL_MAP`. -/
def CHANNEL_MAP : List (ℕ × (ℕ × ℕ)) := _build_channel_map BOARD_CHANNEL_LAYOUT

/-! ### Registry lemmas -/

theorem assignChannels_map_fst (addr : ℕ) :
    ∀ (cs : List ℕ) (idx : ℕ), (assignChannels addr cs idx).map Prod.fst = List.range' idx cs.length := by
  intro cs
  induction cs with
  | nil => intro idx; simp [assignChannels]
  | cons c cs ih => intro idx; simp [assignChannels, List.range'_succ, ih]

theorem buildLoop_map_fst :
    ∀ (l : List (ℕ × List ℕ)) (idx : ℕ),
      (buildLoop l idx).map Prod.fst = List.range' idx ((l.map fun p => p.2.length).sum) := by
  intro l
  induction l with
  | nil => intro idx; simp [buildLoop]
  | cons p rest ih =>
      intro idx
      simp only [buildLoop, List.map_append, List.map_cons, List.sum_cons,
        assignChannels_map_fst, ih]
      rw [List.range'_append_1, Nat.add_comm]

theorem lenSum_insertLayout (p : ℕ × List ℕ) :
    ∀ l : List (ℕ × List ℕ),
      ((insertLayout p l).map fun q => q.2.length).sum = p.2.length + ((l.map fun q => q.2.length).sum) := by
  intro l
  induction l with
  | nil => simp [insertLayout]
  | cons q rest ih =>
      by_cases h : p.1 ≤ q.1
      · simp [insertLayout, h]
      · simp [insertLayout, h, ih]; ring

theorem lenSum_sortLayout :
    ∀ l : List (ℕ × List ℕ),
      ((sortLayout l).map fun q => q.2.length).sum = ((l.map fun q => q.2.length).sum) := by
  intro l
  induction l with
  | nil => rfl
  | cons p rest ih => simp [sortLayout, lenSum_insertLayout, ih]

/-- C8: building the channel registry is deterministic, iterates board
addresses in ascending numeric order assigning consecutive logical ids, and
for the layout `{0x40: 0–3, 0x41: 0–3}` produces ids 0–3 ↦ (0x40, 0..3) and
4–7 ↦ (0x41, 0..3); the assigned ids are always `0, 1, 2, …`
consecutively. -/
theorem claim8 :
    CHANNEL_MAP = [(0, (64, 0)), (1, (64, 1)), (2, (64, 2)), (3, (64, 3)),
      (4, (65, 0)), (5, (65, 1)), (6, (65, 2)), (7, (65, 3))] ∧
    _build_channel_map [(65, [0, 1, 2, 3]), (64, [0, 1, 2, 3])] = CHANNEL_MAP ∧
    ∀ layout : List (ℕ × List ℕ),
      (_build_channel_map layout).map Prod.fst =
        List.range ((layout.map fun p => p.2.length).sum) := by
  refine ⟨by decide, by decide, ?_⟩
  intro layout
  rw [_build_channel_map, buildLoop_map_fst, lenSum_sortLayout, List.range_eq_range']

/-! ### Claim C2: pulse-width-to-duty conversion -/

/-- C2 counterexample: the source truncates with `int(...)` rather than
rounding.  At `us = 1503`, `freq = 50` the exact product is `4924.95525`, so
the code returns 4924 while the spec formula returns 4925. -/
theorem claim2_counterexample :
    us_to_duty16 1503 50 = 4924 ∧
    pulseWidthToDutyValue_spec 1503 50 65535 = 4925 ∧ (4924 : ℤ) ≠ 4925 := by
  refine ⟨?_, ?_, by decide⟩
  · norm_num [us_to_duty16, pyInt]
  · norm_num [pulseWidthToDutyValue_spec, round_eq]

/-- C2 amended: the conversions truncate toward zero (Python `int`) instead of
rounding, and clamp to `[0, ticks]` where `ticks` is the multiplier used:
`us_to_duty16` returns `int(us/10^6·freq·65535)` clamped to `[0, 65535]`, and
the 12-bit `us_to_duty` returns a value in `[0, 4095]`. -/
theorem claim2 :
    (∀ us freq_hz : ℚ,
      us_to_duty16 us freq_hz = max 0 (min 65535 (pyInt (us / 1000000 * freq_hz * 65535))) ∧
      0 ≤ us_to_duty16 us freq_hz ∧ us_to_duty16 us freq_hz ≤ 65535) ∧
    (∀ us freq : ℚ, 0 ≤ us_to_duty us freq ∧ us_to_duty us freq ≤ 4095) := by
  constructor
  · intro us freq_hz
    refine ⟨rfl, le_max_left _ _, ?_⟩
    exact max_le (by norm_num) (min_le_left _ _)
  · intro us freq
    refine ⟨le_max_left _ _, ?_⟩
    exact max_le (by norm_num) (min_le_left _ _)

/-! ### Claim C9: monotonicity of the composed conversion -/

theorem pyInt_mono {a b : ℚ} (h : a ≤ b) : pyInt a ≤ pyInt b := by
  unfold pyInt
  split_ifs with ha hb hb
  · exact Int.floor_le_floor h
  · exact absurd (le_trans ha h) hb
  · have h0 : a ≤ ((0 : ℤ) : ℚ) := by
      exact_mod_cast le_of_lt (lt_of_not_ge ha)
    exact le_trans (Int.ceil_le.mpr h0) ((Int.floor_nonneg).mpr hb)
  · exact Int.ceil_le_ceil h

theorem us_to_duty16_mono {u v freq : ℚ} (hf : 0 ≤ freq) (h : u ≤ v) :
    us_to_duty16 u freq ≤ us_to_duty16 v freq := by
  unfold us_to_duty16
  have h1 : u / 1000000 * freq * 65535 ≤ v / 1000000 * freq * 65535 := by
    have h2 : u / 1000000 ≤ v / 1000000 :=
      (div_le_div_iff_of_pos_right (by norm_num)).mpr h
    exact mul_le_mul_of_nonneg_right (mul_le_mul_of_nonneg_right h2 hf) (by norm_num)
  exact max_le_max le_rfl (min_le_min le_rfl (pyInt_mono h1))

theorem angle_to_us_mono {min_us max_us a b : ℚ} (hus : min_us ≤ max_us) (h : a ≤ b) :
    angle_to_us a min_us max_us MAX_DEG ≤ angle_to_us b min_us max_us MAX_DEG := by
  unfold angle_to_us
  have hab : max MIN_DEG (min MAX_DEG a) / MAX_DEG ≤ max MIN_DEG (min MAX_DEG b) / MAX_DEG := by
    refine (div_le_div_iff_of_pos_right (by norm_num [MAX_DEG])).mpr ?_
    exact max_le_max le_rfl (min_le_min le_rfl h)
  exact add_le_add_left (mul_le_mul_of_nonneg_left hab (sub_nonneg.mpr hus)) _

/-- C9: the composed angle → pulse width → duty conversion is monotone
non-decreasing in the angle, for any pulse bounds with `min_us ≤ max_us` and
any nonnegative frequency (the program's frequency is the positive constant
50); in particular for `_write_angle_async`'s fixed composition. -/
theorem claim9 :
    (∀ min_us max_us freq a b : ℚ, min_us ≤ max_us → 0 ≤ freq → a ≤ b →
      us_to_duty16 (angle_to_us a min_us max_us MAX_DEG) freq ≤
        us_to_duty16 (angle_to_us b min_us max_us MAX_DEG) freq) ∧
    (∀ a b : ℚ, a ≤ b →
      writeAngleDuty PWM_FREQUENCY a ≤ writeAngleDuty PWM_FREQUENCY b) := by
  constructor
  · intro min_us max_us freq a b hus hf h
    exact us_to_duty16_mono hf (angle_to_us_mono hus h)
  · intro a b h
    exact us_to_duty16_mono (by norm_num [PWM_FREQUENCY])
      (angle_to_us_mono (by norm_num [MIN_US, MAX_US]) h)

/-- C9 witness: the monotonicity theorem at the concrete pair 0° ≤ 90°. -/
theorem claim9_witness :
    (0 : ℚ) ≤ 90 ∧ writeAngleDuty PWM_FREQUENCY 0 ≤ writeAngleDuty PWM_FREQUENCY 90 :=
  ⟨by norm_num, claim9.2 0 90 (by norm_num)⟩

/-! ### The paced motion loop (`ServoController._move_to_angle`) -/

/-- Python `abs` on a rational. -/
def rabs (q : ℚ) : ℚ := if q < 0 then -q else q

theorem rabs_nonneg (q : ℚ) : 0 ≤ rabs q := by
  unfold rabs; split_ifs with h
  · linarith
  · exact le_of_not_lt h

theorem rabs_of_nonneg {q : ℚ} (h : 0 ≤ q) : rabs q = q := by
  unfold rabs; rw [if_neg (not_lt.mpr h)]

theorem rabs_of_nonpos {q : ℚ} (h : q ≤ 0) : rabs q = -q := by
  unfold rabs; split_ifs with h1
  · rfl
  · have : q = 0 := le_antisymm h (le_of_not_lt h1)
    simp [this]

/-- The 20 ms step period of `_move_to_angle`. -/
def dt : ℚ := 1 / 50

/-- The 0.2° convergence epsilon of `_move_to_angle`. -/
def eps : ℚ := 1 / 5

/-- The fallback of `_move_to_angle`: a configured speed ≤ 0 is replaced by
the minimum allowed speed. -/
def effDps (dps : ℚ) : ℚ := if dps ≤ 0 then SPEED_MIN_DPS else dps

/-- One iteration of `_move_to_angle`'s `while` loop: returns the angle the
iteration writes and whether the loop breaks (converged) after that write. -/
def moveStep (dps target cur : ℚ) : ℚ × Bool :=
  let err := target - cur
  if rabs err ≤ eps then (target, true)
  else
    let step := dps * dt
    (if rabs err < step then target
     else if 0 < err then cur + step else cur - step, false)

/-- Whether the loop converges within `n` iterations. -/
def moveRun (dps target : ℚ) : ℚ → ℕ → Bool
  | _, 0 => false
  | cur, n + 1 =>
    let p := moveStep dps target cur
    if p.2 then true else moveRun dps target p.1 n

/-- The sequence of angles written by the first `n` iterations of the loop. -/
def moveWrites (dps target : ℚ) : ℚ → ℕ → List ℚ
  | _, 0 => []
  | cur, n + 1 =>
    let p := moveStep dps target cur
    p.1 :: (if p.2 then [] else moveWrites dps target p.1 n)

theorem effDps_pos (dps : ℚ) : 0 < effDps dps := by
  unfold effDps SPEED_MIN_DPS
  split_ifs with h
  · norm_num
  · exact lt_of_not_ge h

/-- Each non-final iteration reduces the remaining error by exactly
`dps · dt`, so the loop converges once the error budget `n · dps · dt` covers
the initial error. -/
theorem moveRun_of_le (d target : ℚ) (hd : 0 < d) :
    ∀ (n : ℕ) (cur : ℚ), rabs (target - cur) ≤ (n : ℚ) * (d * dt) →
      moveRun d target cur (n + 1) = true := by
  intro n
  induction n with
  | zero =>
      intro cur h
      have h0 : rabs (target - cur) = 0 :=
        le_antisymm (by simpa using h) (rabs_nonneg _)
      have h1 : rabs (target - cur) ≤ eps := by rw [h0]; norm_num [eps]
      simp [moveRun, moveStep, h1]
  | succ n ih =>
      intro cur h
      by_cases h1 : rabs (target - cur) ≤ eps
      · simp [moveRun, moveStep, h1]
      · have hdt : (0 : ℚ) < d * dt := by
          have : (0 : ℚ) < dt := by norm_num [dt]
          positivity
        by_cases h2 : rabs (target - cur) < d * dt
        · have hz : rabs (target - target) ≤ (n : ℚ) * (d * dt) := by
            have : rabs (target - target) = 0 := by
              rw [sub_self]; exact rabs_of_nonneg le_rfl
            rw [this]; positivity
          have hrec := ih target hz
          simp only [moveRun, moveStep, h1, if_false, if_neg h1, if_pos h2]
          simpa [moveRun, moveStep, h1, h2] using hrec
        · by_cases h3 : 0 < target - cur
          · have herr : rabs (target - (cur + d * dt)) ≤ (n : ℚ) * (d * dt) := by
              have he : rabs (target - cur) = target - cur := rabs_of_nonneg h3.le
              have hge : d * dt ≤ target - cur := by
                rw [← he]; exact le_of_not_lt h2
              have : rabs (target - (cur + d * dt)) = (target - cur) - d * dt := by
                rw [show target - (cur + d * dt) = (target - cur) - d * dt by ring]
                exact rabs_of_nonneg (by linarith)
              rw [this]
              have hb : target - cur ≤ ((n : ℚ) + 1) * (d * dt) := by
                rw [← he]; push_cast at h ⊢; linarith
              linarith [hb]
            have hrec := ih (cur + d * dt) herr
            simpa [moveRun, moveStep, h1, h2, h3] using hrec
          · have hneg : target - cur ≤ 0 := le_of_not_lt h3
            have herr : rabs (target - (cur - d * dt)) ≤ (n : ℚ) * (d * dt) := by
              have he : rabs (target - cur) = -(target - cur) := rabs_of_nonpos hneg
              have hge : d * dt ≤ -(target - cur) := by
                rw [← he]; exact le_of_not_lt h2
              have : rabs (target - (cur - d * dt)) = -(target - cur) - d * dt := by
                rw [show target - (cur - d * dt) = (target - cur) + d * dt by ring]
                exact (rabs_of_nonpos (by linarith)).trans (by ring)
              rw [this]
              have hb : -(target - cur) ≤ ((n : ℚ) + 1) * (d * dt) := by
                rw [← he]; push_cast at h ⊢; linarith
              linarith [hb]
            have hrec := ih (cur - d * dt) herr
            simpa [moveRun, moveStep, h1, h2, h3] using hrec

/-- Termination of the paced loop for any start, target, and configured
speed, via the positive effective speed. -/
theorem moveRun_terminates (dps cur target : ℚ) :
    ∃ n, moveRun (effDps dps) target cur n = true := by
  have hd : 0 < effDps dps := effDps_pos dps
  have hdt : (0 : ℚ) < effDps dps * dt := by
    have : (0 : ℚ) < dt := by norm_num [dt]
    positivity
  set q := rabs (target - cur) / (effDps dps * dt) with hq
  refine ⟨⌈q⌉₊ + 1, moveRun_of_le _ _ hd _ cur ?_⟩
  have h1 : q ≤ (⌈q⌉₊ : ℚ) := Nat.le_ceil q
  calc rabs (target - cur) = q * (effDps dps * dt) := by
        rw [hq]; field_simp
    _ ≤ (⌈q⌉₊ : ℚ) * (effDps dps * dt) := mul_le_mul_of_nonneg_right h1 hdt.le

/-! ### The controller state machine (`ServoController`)

Association lists model the Python dicts; every read in the source is a
keyed lookup, so only lookup semantics matter.  `List.lookup` finds the most
recently prepended binding, matching dict assignment. -/

/-- A move task (`asyncio.Task` running `_move_to_angle`): its channel and
target, the cooperative-cancellation flag set by `Task.cancel()`, whether
the coroutine has terminated, and — once the body has started running — the
locally captured current angle and speed. -/
structure MoveTask where
  tid : ℕ
  ch : ℕ
  target : ℚ
  cancelRequested : Bool := false
  finished : Bool := false
  started : Bool := false
  cur : ℚ := 0
  dps : ℚ := 0
deriving DecidableEq, Repr

/-- Observable events: a bus write (with the duty value and whether the
single bus lock `_bus_lock` was held), a warning log carrying channel and
board address, a board-driver de-initialisation, a driver (re-)creation for
an address, and closing the bus. -/
inductive Ev where
  | write (ch : ℕ) (duty : ℤ) (locked : Bool)
  | warn (ch : ℕ) (addr : ℕ)
  | deinitBoard (addr : ℕ)
  | reinit (addr : ℕ)
  | busClose
deriving DecidableEq, Repr

/-- The `ServoController` state. -/
structure Ctrl where
  channelMap : List (ℕ × (ℕ × ℕ))
  pwmFreq : ℚ
  i2cOpen : Bool := false
  pcas : List ℕ := []
  angles : List (ℕ × ℚ) := []
  speeds : List (ℕ × ℚ) := []
  moveTasks : List (ℕ × ℕ) := []
  tasks : List MoveTask := []
  nextTid : ℕ := 0
deriving DecidableEq, Repr

/-- Insertion sort on naturals (Python `sorted`). -/
def insertNat (n : ℕ) : List ℕ → List ℕ
  | [] => [n]
  | m :: rest => if n ≤ m then n :: m :: rest else m :: insertNat n rest

def sortNat : List ℕ → List ℕ
  | [] => []
  | n :: rest => insertNat n (sortNat rest)

/-- `self._channels`: the sorted logical channel ids of the channel map. -/
def channelsOf (c : Ctrl) : List ℕ := sortNat (c.channelMap.map Prod.fst)

/-- The distinct board addresses of the channel map, ascending
(`sorted({addr for addr, _ in self.channel_map.values()})`). -/
def addressesOf (c : Ctrl) : List ℕ :=
  sortNat ((c.channelMap.map fun p => p.2.1).dedup)

/-- Python `dict.pop(key, None)` on an association list. -/
def removeKey (k : ℕ) (l : List (ℕ × ℕ)) : List (ℕ × ℕ) :=
  l.filter fun p => p.1 ≠ k

def findTask (ts : List MoveTask) (tid : ℕ) : Option MoveTask :=
  ts.find? fun t => t.tid == tid

/-- Replace the task with `t.tid` by `t`. -/
def setTask (ts : List MoveTask) (t : MoveTask) : List MoveTask :=
  ts.map fun u => if u.tid == t.tid then t else u

/-- `_validate_channel`: protocol bound 0..15, then registry membership. -/
def validChannel (c : Ctrl) (ch : ℕ) : Bool :=
  decide (ch ≤ 15) && (List.lookup ch c.channelMap).isSome

/-- `_cancel_move` on the task list and handle map: pop the recorded handle
and, if that task has not finished, request its cancellation.  It does not
wait for the task to stop. -/
def cancelCore (ts : List MoveTask) (m : List (ℕ × ℕ)) (ch : ℕ) :
    List MoveTask × List (ℕ × ℕ) :=
  match List.lookup ch m with
  | none => (ts, m)
  | some tid =>
    match findTask ts tid with
    | none => (ts, removeKey ch m)
    | some t =>
      if t.finished then (ts, removeKey ch m)
      else (setTask ts { t with cancelRequested := true }, removeKey ch m)

/-- `ServoController._cancel_move`. -/
def _cancel_move (c : Ctrl) (ch : ℕ) : Ctrl :=
  let p := cancelCore c.tasks c.moveTasks ch
  { c with tasks := p.1, moveTasks := p.2 }

/-- `ServoController.set_speed`: validate, clamp to
`[SPEED_MIN_DPS, SPEED_MAX_DPS]`, store, return the stored value.  `none`
models the raised `HTTPException`. -/
def set_speed (c : Ctrl) (ch : ℕ) (dps : ℚ) : Option (Ctrl × ℚ) :=
  if validChannel c ch then
    let d := max SPEED_MIN_DPS (min SPEED_MAX_DPS dps)
    some ({ c with speeds := (ch, d) :: c.speeds }, d)
  else none

/-- `ServoController.set_angle`: validate, clamp the target, cancel the
recorded move (without awaiting it), create and record the replacement task,
and return the clamped target immediately. -/
def set_angle (c : Ctrl) (ch : ℕ) (target : ℚ) : Option (Ctrl × ℚ) :=
  if validChannel c ch then
    let tgt := clamp_angle target
    let c1 := _cancel_move c ch
    let t : MoveTask := { tid := c1.nextTid, ch := ch, target := tgt }
    some ({ c1 with
              tasks := c1.tasks ++ [t],
              moveTasks := (ch, t.tid) :: c1.moveTasks,
              nextTid := c1.nextTid + 1 }, tgt)
  else none

/-- `ServoController.start`: open the bus, configure one driver per distinct
address, then per channel write the centre pulse through the direct
(unlocked) `_write_us` path and initialise angle and speed state. -/
def start (c : Ctrl) : Ctrl × List Ev :=
  let chs := channelsOf c
  ({ c with
      i2cOpen := true,
      pcas := addressesOf c,
      angles := chs.foldl (fun a ch => (ch, CENTER_ANGLE) :: a) [],
      speeds := chs.foldl (fun a ch => (ch, SPEED_DEF_DPS) :: a) [] },
   chs.map fun ch => Ev.write ch (us_to_duty16 MID_US c.pwmFreq) false)

/-- The zero-duty loop of `stop`: write `0` to each channel in order through
the direct (unlocked) `_write_duty` path; a failing write (`fails ch`)
raises, abandoning the remaining channels.  Returns the emitted writes and
whether an exception is in flight. -/
def stopWrites (fails : ℕ → Bool) : List ℕ → List Ev × Bool
  | [] => ([], false)
  | ch :: rest =>
    if fails ch then ([], true)
    else
      let p := stopWrites fails rest
      (Ev.write ch 0 false :: p.1, p.2)

/-- `ServoController.stop`: cancel every recorded task and clear the handle
map; if drivers exist, run the zero-duty loop inside `try/finally` — the
`finally` de-initialises and clears every driver, but an exception from a
failed write then propagates out of `stop`, skipping the bus close.  The
third component is whether an exception escapes. -/
def stop (c : Ctrl) (fails : ℕ → Bool) : Ctrl × List Ev × Bool :=
  let ts := c.tasks.map fun t =>
    if (c.moveTasks.any fun p => p.2 == t.tid) && !t.finished then
      { t with cancelRequested := true }
    else t
  let c1 := { c with tasks := ts, moveTasks := ([] : List (ℕ × ℕ)) }
  if c1.pcas.isEmpty then
    if c1.i2cOpen then ({ c1 with i2cOpen := false }, [Ev.busClose], false)
    else (c1, [], false)
  else
    let w := stopWrites fails (channelsOf c)
    let devs := c1.pcas.map Ev.deinitBoard
    let c2 := { c1 with pcas := ([] : List ℕ) }
    if w.2 then (c2, w.1 ++ devs, true)
    else if c2.i2cOpen then
      ({ c2 with i2cOpen := false }, w.1 ++ devs ++ [Ev.busClose], false)
    else (c2, w.1 ++ devs, false)

/-- The angle resets of `release_all`: `self._angles[ch] = 0.0` per channel. -/
def releaseAngles (chs : List ℕ) (a : List (ℕ × ℚ)) : List (ℕ × ℚ) :=
  chs.foldl (fun acc ch => (ch, (0 : ℚ)) :: acc) a

/-- `ServoController.release_all`: cancel every channel's move, then write
zero duty to every channel through the locked `_write_duty_async` path and
reset its stored angle to 0. -/
def release_all (c : Ctrl) : Ctrl × List Ev :=
  let chs := channelsOf c
  let c1 := chs.foldl _cancel_move c
  ({ c1 with angles := releaseAngles chs c1.angles },
   chs.map fun ch => Ev.write ch 0 true)

/-- `ServoController.current_state`: the angle map, the speed map and the
configured maximum angle (read-only). -/
def current_state (c : Ctrl) : List (ℕ × ℚ) × List (ℕ × ℚ) × ℚ :=
  (c.angles, c.speeds, MAX_DEG)

/-- The `except (OSError, RuntimeError)` handler of `_move_to_angle`: look
up the board address, log a warning with channel and address, and — when the
address is known and the bus is open — de-initialise the existing driver (if
any) and create exactly one fresh driver; then the task ends.  The stored
angles are not touched, so the angle last successfully written remains the
recorded state. -/
def faultPath (c : Ctrl) (t : MoveTask) : Ctrl × List Ev :=
  let tfin := { t with finished := true }
  match (List.lookup t.ch c.channelMap).map Prod.fst with
  | none => ({ c with tasks := setTask c.tasks tfin }, [Ev.warn t.ch 0])
  | some addr =>
    if c.i2cOpen then
      if addr ∈ c.pcas then
        ({ c with tasks := setTask c.tasks tfin },
         [Ev.warn t.ch addr, Ev.deinitBoard addr, Ev.reinit addr])
      else
        ({ c with tasks := setTask c.tasks tfin, pcas := c.pcas ++ [addr] },
         [Ev.warn t.ch addr, Ev.reinit addr])
    else ({ c with tasks := setTask c.tasks tfin }, [Ev.warn t.ch addr])

/-- One `while` iteration of a started, uncancelled task: compute the next
angle with `moveStep`, write it through the locked bus path, then record it
in the angle map; a failing write diverts to `faultPath` before anything is
recorded. -/
def runIter (c : Ctrl) (t : MoveTask) (writeFails : Bool) : Ctrl × List Ev :=
  if writeFails then faultPath c t
  else
    let p := moveStep t.dps t.target t.cur
    ({ c with
        angles := (t.ch, p.1) :: c.angles,
        tasks := setTask c.tasks { t with cur := p.1, finished := p.2 } },
     [Ev.write t.ch (writeAngleDuty c.pwmFreq p.1) true])

/-- One resumption of the task `tid` by the event loop.  A requested
cancellation is delivered here, before any further write (the
`except asyncio.CancelledError: pass` path).  On the first resumption the
body reads the channel's current angle and configured speed once, applying
the minimum-speed fallback. -/
def taskStep (c : Ctrl) (tid : ℕ) (writeFails : Bool) : Ctrl × List Ev :=
  match findTask c.tasks tid with
  | none => (c, [])
  | some t =>
    if t.finished then (c, [])
    else if t.cancelRequested then
      ({ c with tasks := setTask c.tasks { t with finished := true } }, [])
    else if t.started then runIter c t writeFails
    else
      let cur := (List.lookup t.ch c.angles).getD CENTER_ANGLE
      let dps := effDps ((List.lookup t.ch c.speeds).getD SPEED_DEF_DPS)
      runIter c { t with started := true, cur := cur, dps := dps } writeFails

/-- Modelled from the spec: a variant of `taskStep` in which the paced task
re-reads the configured speed from the channel state at every iteration
("read live by the paced task"), for comparison with the source's
read-once-at-start behaviour. -/
def specTaskStepLive (c : Ctrl) (tid : ℕ) (writeFails : Bool) : Ctrl × List Ev :=
  match findTask c.tasks tid with
  | none => (c, [])
  | some t =>
    if t.finished then (c, [])
    else if t.cancelRequested then
      ({ c with tasks := setTask c.tasks { t with finished := true } }, [])
    else
      let cur := if t.started then t.cur else (List.lookup t.ch c.angles).getD CENTER_ANGLE
      let dps := effDps ((List.lookup t.ch c.speeds).getD SPEED_DEF_DPS)
      runIter c { t with started := true, cur := cur, dps := dps } writeFails

/-! ### Event predicates and basic list lemmas -/

def evIsWrite : Ev → Bool
  | Ev.write _ _ _ => true
  | _ => false

def evIsReinit : Ev → Bool
  | Ev.reinit _ => true
  | _ => false

/-- Holds when the event, if a bus write, was performed under the bus lock. -/
def evWriteLocked : Ev → Bool
  | Ev.write _ _ l => l
  | _ => true

/-- Holds when the event, if a bus write, was performed without the lock. -/
def evWriteUnlocked : Ev → Bool
  | Ev.write _ _ l => !l
  | _ => true

theorem lookup_cons_self {β : Type} (k : ℕ) (v : β) (l : List (ℕ × β)) :
    List.lookup k ((k, v) :: l) = some v := by
  simp [List.lookup]

theorem lookup_cons_ne {β : Type} {k k' : ℕ} (h : k' ≠ k) (v : β) (l : List (ℕ × β)) :
    List.lookup k' ((k, v) :: l) = List.lookup k' l := by
  have hb : (k' == k) = false := beq_eq_false_iff_ne.mpr h
  simp [List.lookup, hb]

theorem cancel_move_speeds (c : Ctrl) (ch : ℕ) : (_cancel_move c ch).speeds = c.speeds := rfl

theorem cancel_move_channelMap (c : Ctrl) (ch : ℕ) :
    (_cancel_move c ch).channelMap = c.channelMap := rfl

theorem foldl_cancel_speeds :
    ∀ (chs : List ℕ) (c : Ctrl), (chs.foldl _cancel_move c).speeds = c.speeds := by
  intro chs
  induction chs with
  | nil => intro c; rfl
  | cons ch rest ih => intro c; rw [List.foldl_cons, ih]; rfl

theorem foldl_cancel_channelMap :
    ∀ (chs : List ℕ) (c : Ctrl), (chs.foldl _cancel_move c).channelMap = c.channelMap := by
  intro chs
  induction chs with
  | nil => intro c; rfl
  | cons ch rest ih => intro c; rw [List.foldl_cons, ih]; rfl

theorem lookup_releaseAngles :
    ∀ (chs : List ℕ) (a : List (ℕ × ℚ)) (ch : ℕ),
      (List.lookup ch a = some 0 ∨ ch ∈ chs) →
      List.lookup ch (releaseAngles chs a) = some 0 := by
  intro chs
  induction chs with
  | nil =>
      intro a ch h
      rcases h with h | h
      · exact h
      · exact absurd h (List.not_mem_nil ch)
  | cons c' rest ih =>
      intro a ch h
      show List.lookup ch (releaseAngles rest ((c', (0 : ℚ)) :: a)) = some 0
      apply ih
      by_cases hc : ch = c'
      · subst hc; exact Or.inl (lookup_cons_self ch 0 a)
      · rcases h with h | h
        · exact Or.inl ((lookup_cons_ne hc 0 a).trans h)
        · rcases List.mem_cons.mp h with h | h
          · exact absurd h hc
          · exact Or.inr h

/-! ### Claim C3: which writes hold the bus lock -/

def c3ctrl : Ctrl := { channelMap := CHANNEL_MAP, pwmFreq := 50 }

/-- C3 counterexample: the start-up initialization path emits its eight
centre-pulse writes through the direct `_write_us` → `_write_duty` path,
never acquiring `_bus_lock`; the claim that the start-up and shutdown writes
hold the lock is false. -/
theorem claim3_counterexample :
    (start c3ctrl).2.length = 8 ∧
    (start c3ctrl).2.all evIsWrite = true ∧
    (start c3ctrl).2.all evWriteLocked = false := by
  refine ⟨rfl, rfl, rfl⟩

theorem runIter_locked (c : Ctrl) (t : MoveTask) (f : Bool) :
    (runIter c t f).2.all evWriteLocked = true := by
  unfold runIter
  by_cases hf : f = true
  · rw [if_pos hf]
    unfold faultPath
    rcases hm : (List.lookup t.ch c.channelMap).map Prod.fst with _ | addr
    · simp [hm, evWriteLocked]
    · simp only [hm]
      split_ifs <;> simp [evWriteLocked]
  · rw [if_neg hf]
    simp [evWriteLocked]

theorem stopWrites_unlocked (fails : ℕ → Bool) :
    ∀ l : List ℕ, (stopWrites fails l).1.all evWriteUnlocked = true := by
  intro l
  induction l with
  | nil => rfl
  | cons ch rest ih =>
      unfold stopWrites
      split_ifs
      · rfl
      · simpa [evWriteUnlocked] using ih

/-- C3 amended: only the writes that go through `_write_duty_async` — the
paced motion steps and `release_all`'s zero writes — hold the bus lock; the
start-up centre-pulse writes and the shutdown zero-duty writes use the
direct synchronous path and do not acquire the lock. -/
theorem claim3 :
    (∀ (c : Ctrl) (tid : ℕ) (f : Bool), (taskStep c tid f).2.all evWriteLocked = true) ∧
    (∀ c : Ctrl, (release_all c).2.all evWriteLocked = true) ∧
    (∀ c : Ctrl, (start c).2.all evWriteUnlocked = true) ∧
    (∀ (c : Ctrl) (fails : ℕ → Bool), (stop c fails).2.1.all evWriteUnlocked = true) := by
  refine ⟨?_, ?_, ?_, ?_⟩
  · intro c tid f
    unfold taskStep
    rcases hft : findTask c.tasks tid with _ | t
    · rfl
    · simp only
      split_ifs
      · rfl
      · rfl
      · exact runIter_locked _ _ _
      · exact runIter_locked _ _ _
  · intro c
    rw [release_all]
    simp only [List.all_eq_true]
    intro e he
    rcases List.mem_map.mp he with ⟨ch, _, rfl⟩
    rfl
  · intro c
    rw [start]
    simp only [List.all_eq_true]
    intro e he
    rcases List.mem_map.mp he with ⟨ch, _, rfl⟩
    rfl
  · intro c fails
    simp only [stop]
    split_ifs <;>
      simp only [List.all_append, List.all_cons, List.all_nil, Bool.and_eq_true,
        stopWrites_unlocked, evWriteUnlocked, List.all_eq_true, true_and, and_true] <;>
      try exact fun e he => by rcases List.mem_map.mp he with ⟨a, _, rfl⟩; rfl

/-! ### Claim C10: frame conditions of release_all -/

/-- C10: `release_all` resets every configured channel's stored angle to 0
and writes zero duty (under the lock) to each, while the stored speeds, the
channel map, and hence the speeds reported by `current_state` are
unchanged. -/
theorem claim10 (c : Ctrl) :
    (∀ ch ∈ channelsOf c, List.lookup ch (release_all c).1.angles = some 0) ∧
    (∀ ch ∈ channelsOf c, Ev.write ch 0 true ∈ (release_all c).2) ∧
    (release_all c).1.speeds = c.speeds ∧
    (release_all c).1.channelMap = c.channelMap ∧
    (current_state (release_all c).1).2.1 = (current_state c).2.1 := by
  refine ⟨?_, ?_, ?_, ?_, ?_⟩
  · intro ch hch
    exact lookup_releaseAngles (channelsOf c) _ ch (Or.inr hch)
  · intro ch hch
    exact List.mem_map.mpr ⟨ch, hch, rfl⟩
  · exact foldl_cancel_speeds (channelsOf c) c
  · exact foldl_cancel_channelMap (channelsOf c) c
  · exact foldl_cancel_speeds (channelsOf c) c

def c10ctrl : Ctrl :=
  { channelMap := [(0, (64, 0))], pwmFreq := 50, i2cOpen := true, pcas := [64],
    angles := [(0, 135)], speeds := [(0, 25)] }

/-- C10 witness: the theorem applied to a concrete one-channel controller. -/
theorem claim10_witness :
    List.lookup 0 (release_all c10ctrl).1.angles = some 0 ∧
    (release_all c10ctrl).1.speeds = c10ctrl.speeds :=
  ⟨(claim10 c10ctrl).1 0 (by decide), (claim10 c10ctrl).2.2.1⟩

/-! ### Task-list lemmas -/

theorem findTask_mem {ts : List MoveTask} {tid : ℕ} {t : MoveTask}
    (h : findTask ts tid = some t) : t ∈ ts :=
  List.mem_of_find?_eq_some h

theorem findTask_tid {ts : List MoveTask} {tid : ℕ} {t : MoveTask}
    (h : findTask ts tid = some t) : t.tid = tid := by
  have := List.find?_some h
  simpa using this

theorem findTask_eq_none {ts : List MoveTask} {tid : ℕ}
    (h : findTask ts tid = none) : ∀ t ∈ ts, t.tid ≠ tid := by
  intro t ht
  have := List.find?_eq_none.mp h t ht
  simpa using this

theorem mem_setTask {ts : List MoveTask} {t' u : MoveTask}
    (h : u ∈ setTask ts t') : u = t' ∨ u ∈ ts := by
  rcases List.mem_map.mp h with ⟨v, hv, heq⟩
  by_cases hc : (v.tid == t'.tid) = true
  · left; rw [← heq]; simp [hc]
  · right
    rw [← heq]
    simp only [hc, Bool.false_eq_true, if_false]
    exact hv

theorem mem_setTask_of_ne {ts : List MoveTask} {t' u : MoveTask}
    (h : u ∈ ts) (hne : u.tid ≠ t'.tid) : u ∈ setTask ts t' := by
  have hfix : (if u.tid == t'.tid then t' else u) = u := by
    simp [beq_eq_false_iff_ne.mpr hne]
  rw [← hfix]
  exact List.mem_map_of_mem _ h

theorem setTask_tid_eq {ts : List MoveTask} {t' u : MoveTask}
    (h : u ∈ setTask ts t') (htid : u.tid = t'.tid) : u = t' := by
  rcases List.mem_map.mp h with ⟨v, _, heq⟩
  by_cases hc : (v.tid == t'.tid) = true
  · rw [← heq]; simp [hc]
  · exfalso
    rw [← heq] at htid
    simp only [hc, Bool.false_eq_true, if_false] at htid
    exact hc (beq_iff_eq.mpr htid)

theorem findTask_setTask {ts : List MoveTask} {tid : ℕ} {t : MoveTask}
    (h : findTask ts tid = some t) (t' : MoveTask) (ht : t'.tid = tid) :
    findTask (setTask ts t') tid = some t' := by
  induction ts with
  | nil => simp [findTask] at h
  | cons u rest ih =>
      unfold findTask at h
      unfold findTask setTask
      simp only [List.map_cons]
      by_cases hc : (u.tid == tid) = true
      · have hc2 : (u.tid == t'.tid) = true := by rw [ht]; exact hc
        rw [if_pos hc2]
        have hp : (t'.tid == tid) = true := beq_iff_eq.mpr ht
        exact List.find?_cons_of_pos _ hp
      · have hc2 : (u.tid == t'.tid) = false := by
          rw [ht]; exact Bool.not_eq_true _ ▸ (by simpa using hc)
        rw [if_neg (by simp [hc2])]
        rw [List.find?_cons_of_neg _ (by simpa using hc)] at h
        rw [List.find?_cons_of_neg _ (by simpa using hc)]
        exact ih h

/-! ### Claim C6: fault handling inside a paced move -/

/-- C6: when the bus write of a started, uncancelled task fails, the task
logs one warning with channel and board address, performs exactly one
re-initialization of the affected board's driver, terminates without
retrying (no write event), leaves the recorded angles — hence the angle last
successfully written — and the speeds and task handles untouched, and every
other task is unaffected. -/
theorem claim6 (c : Ctrl) (tid : ℕ) (t : MoveTask) (addr lc : ℕ)
    (hf : findTask c.tasks tid = some t)
    (hfin : t.finished = false) (hcan : t.cancelRequested = false)
    (hst : t.started = true)
    (haddr : List.lookup t.ch c.channelMap = some (addr, lc))
    (hi2c : c.i2cOpen = true) :
    Ev.warn t.ch addr ∈ (taskStep c tid true).2 ∧
    (taskStep c tid true).2.filter evIsReinit = [Ev.reinit addr] ∧
    (taskStep c tid true).2.filter evIsWrite = [] ∧
    findTask (taskStep c tid true).1.tasks tid = some { t with finished := true } ∧
    (taskStep c tid true).1.angles = c.angles ∧
    (taskStep c tid true).1.speeds = c.speeds ∧
    (taskStep c tid true).1.moveTasks = c.moveTasks ∧
    ∀ u ∈ c.tasks, u.tid ≠ tid → u ∈ (taskStep c tid true).1.tasks := by
  have hstep : taskStep c tid true = faultPath c t := by
    unfold taskStep
    rw [hf]
    simp [hfin, hcan, hst, runIter]
  rw [hstep]
  unfold faultPath
  rw [haddr]
  simp only [Option.map_some', hi2c, if_true]
  have htid0 : t.tid = tid := findTask_tid hf
  have htid : ({ t with finished := true } : MoveTask).tid = tid := htid0
  have hfind : findTask (setTask c.tasks { t with finished := true }) tid =
      some { t with finished := true } :=
    findTask_setTask hf { t with finished := true } htid
  have hmemo : ∀ u ∈ c.tasks, u.tid ≠ tid →
      u ∈ setTask c.tasks { t with finished := true } := by
    intro u hu hne
    exact mem_setTask_of_ne hu (by simpa [findTask_tid hf] using hne)
  by_cases hmem : addr ∈ c.pcas
  · rw [if_pos hmem]
    exact ⟨by simp, by simp [evIsReinit], by simp [evIsWrite],
      hfind, rfl, rfl, rfl, hmemo⟩
  · rw [if_neg hmem]
    exact ⟨by simp, by simp [evIsReinit], by simp [evIsWrite],
      hfind, rfl, rfl, rfl, hmemo⟩

def c6task : MoveTask :=
  { tid := 0, ch := 0, target := 90, cancelRequested := false, finished := false,
    started := true, cur := 10, dps := 90 }

def c6ctrl : Ctrl :=
  { channelMap := [(0, (64, 0))], pwmFreq := 50, i2cOpen := true, pcas := [64],
    angles := [(0, 10)], speeds := [(0, 90)], moveTasks := [(0, 0)],
    tasks := [c6task], nextTid := 1 }

/-- C6 witness: a concrete faulting step on a one-channel controller. -/
theorem claim6_witness :
    Ev.warn 0 64 ∈ (taskStep c6ctrl 0 true).2 ∧
    (taskStep c6ctrl 0 true).2.filter evIsWrite = [] := by
  have h := claim6 c6ctrl 0 c6task 64 0 rfl rfl rfl rfl rfl rfl
  exact ⟨h.1, h.2.2.1⟩

/-! ### Claim C4: shutdown error handling -/

def c4ctrl : Ctrl :=
  { channelMap := [(0, (64, 0)), (1, (64, 1))], pwmFreq := 50, i2cOpen := true,
    pcas := [64], angles := [(0, 0), (1, 0)], speeds := [] }

def c4fails : ℕ → Bool := fun ch => ch == 0

/-- C4 counterexample: when the zero-duty write for channel 0 fails during
`stop`, the exception escapes `stop` (there is no `except`, only a
`finally`), channel 1 never receives its zero write, and the bus is never
closed — refuting "continues past individual failures" and "never lets an
exception propagate"; the `finally` block does still de-initialize the
board. -/
theorem claim4_counterexample :
    (stop c4ctrl c4fails).2.2 = true ∧
    Ev.write 1 0 false ∉ (stop c4ctrl c4fails).2.1 ∧
    Ev.busClose ∉ (stop c4ctrl c4fails).2.1 ∧
    Ev.deinitBoard 64 ∈ (stop c4ctrl c4fails).2.1 := by
  refine ⟨rfl, ?_, ?_, ?_⟩ <;> decide

theorem stopWrites_ok (fails : ℕ → Bool) :
    ∀ l : List ℕ, (∀ ch ∈ l, fails ch = false) →
      stopWrites fails l = (l.map fun ch => Ev.write ch 0 false, false) := by
  intro l
  induction l with
  | nil => intro _; rfl
  | cons ch rest ih =>
      intro h
      unfold stopWrites
      rw [if_neg (by simp [h ch (List.mem_cons_self ch rest)])]
      rw [ih fun x hx => h x (List.mem_cons_of_mem ch hx)]
      rfl

theorem stopWrites_no_busClose (fails : ℕ → Bool) :
    ∀ l : List ℕ, Ev.busClose ∉ (stopWrites fails l).1 := by
  intro l
  induction l with
  | nil => simp [stopWrites]
  | cons ch rest ih =>
      unfold stopWrites
      split_ifs
      · simp
      · simp only [List.mem_cons]
        rintro (h | h)
        · exact Ev.noConfusion h
        · exact ih h

theorem stop_of_pcas_empty {c : Ctrl} (h : c.pcas = []) (fails : ℕ → Bool) :
    (stop c fails).2.2 = false := by
  simp only [stop]
  rw [if_pos (by simp [h])]
  split_ifs <;> rfl

/-- C4 amended: `stop` always requests cancellation of every recorded
unfinished motion task, clears the handle map, de-initializes every board
driver (the `finally` block) and clears the driver table, and a repeated
call never throws; when no zero-duty write fails, `stop` zeroes every
channel, leaves the bus closed and, if it was open, emits the bus-close —
no exception escapes.  But the zero-duty loop is not per-channel
best-effort: a failing write makes the exception escape `stop` and the
bus-close step is skipped. -/
theorem claim4 (c : Ctrl) (fails : ℕ → Bool) :
    (stop c fails).1.pcas = [] ∧
    (stop c fails).1.moveTasks = [] ∧
    (∀ t ∈ c.tasks, t.finished = false → (∃ p ∈ c.moveTasks, p.2 = t.tid) →
      { t with cancelRequested := true } ∈ (stop c fails).1.tasks) ∧
    (∀ addr ∈ c.pcas, Ev.deinitBoard addr ∈ (stop c fails).2.1) ∧
    ((∀ ch ∈ channelsOf c, fails ch = false) →
      (stop c fails).2.2 = false ∧
      (stop c fails).1.i2cOpen = false ∧
      (c.pcas ≠ [] → ∀ ch ∈ channelsOf c, Ev.write ch 0 false ∈ (stop c fails).2.1) ∧
      (c.i2cOpen = true → Ev.busClose ∈ (stop c fails).2.1)) ∧
    ((stop c fails).2.2 = true → Ev.busClose ∉ (stop c fails).2.1) ∧
    (∀ fails2 : ℕ → Bool, (stop (stop c fails).1 fails2).2.2 = false) := by
  have hpcas : (stop c fails).1.pcas = [] := by
    simp only [stop]
    split_ifs with h1 h2 h3 h4
    · exact List.isEmpty_iff.mp h1
    · exact List.isEmpty_iff.mp h1
    · rfl
    · rfl
    · rfl
  have hmt : (stop c fails).1.moveTasks = [] := by
    simp only [stop]
    split_ifs <;> rfl
  have htasks : (stop c fails).1.tasks =
      c.tasks.map (fun t =>
        if ((c.moveTasks.any fun p => p.2 == t.tid) && !t.finished) = true then
          { t with cancelRequested := true }
        else t) := by
    simp only [stop]
    split_ifs <;> rfl
  refine ⟨hpcas, hmt, ?_, ?_, ?_, ?_, ?_⟩
  · intro t ht hfin hreg
    rw [htasks]
    have hg : ((c.moveTasks.any fun p => p.2 == t.tid) && !t.finished) = true := by
      obtain ⟨p, hp, hpt⟩ := hreg
      have hany : (c.moveTasks.any fun p => p.2 == t.tid) = true :=
        List.any_eq_true.mpr ⟨p, hp, by simp [hpt]⟩
      rw [hany, hfin]
      rfl
    exact List.mem_map.mpr ⟨t, ht, if_pos hg⟩
  · intro addr haddr
    simp only [stop]
    split_ifs with h1 h2 h3 h4
    · have hc : c.pcas = [] := List.isEmpty_iff.mp h1
      rw [hc] at haddr
      exact absurd haddr (List.not_mem_nil addr)
    · have hc : c.pcas = [] := List.isEmpty_iff.mp h1
      rw [hc] at haddr
      exact absurd haddr (List.not_mem_nil addr)
    · exact List.mem_append_right _ (List.mem_map.mpr ⟨addr, haddr, rfl⟩)
    · exact List.mem_append_left _
        (List.mem_append_right _ (List.mem_map.mpr ⟨addr, haddr, rfl⟩))
    · exact List.mem_append_right _ (List.mem_map.mpr ⟨addr, haddr, rfl⟩)
  · intro hok
    have hw := stopWrites_ok fails (channelsOf c) hok
    simp only [stop]
    split_ifs with h1 h2 h3 h4
    · exact ⟨rfl, rfl, fun hne _ _ => absurd (List.isEmpty_iff.mp h1) hne,
        fun _ => List.mem_singleton_self _⟩
    · have hio : c.i2cOpen = false := by simpa using h2
      refine ⟨rfl, hio, fun hne _ _ => absurd (List.isEmpty_iff.mp h1) hne,
        fun hopen => ?_⟩
      rw [hio] at hopen
      exact Bool.noConfusion hopen
    · rw [hw] at h3
      simp at h3
    · refine ⟨rfl, rfl, fun _ ch hch => ?_,
        fun _ => List.mem_append_right _ (List.mem_singleton_self _)⟩
      rw [hw]
      exact List.mem_append_left _
        (List.mem_append_left _ (List.mem_map.mpr ⟨ch, hch, rfl⟩))
    · have hio : c.i2cOpen = false := by simpa using h4
      refine ⟨rfl, hio, fun _ ch hch => ?_, fun hopen => ?_⟩
      · rw [hw]
        exact List.mem_append_left _ (List.mem_map.mpr ⟨ch, hch, rfl⟩)
      · rw [hio] at hopen
        exact Bool.noConfusion hopen
  · simp only [stop]
    split_ifs with h1 h2 h3 h4
    · intro h; exact absurd h (by simp)
    · intro h; exact absurd h (by simp)
    · intro _
      simp only [List.mem_append]
      rintro (h | h)
      · exact stopWrites_no_busClose fails _ h
      · rcases List.mem_map.mp h with ⟨a, _, heq⟩
        exact Ev.noConfusion heq
    · intro h; exact absurd h (by simp)
    · intro h; exact absurd h (by simp)
  · intro fails2
    exact stop_of_pcas_empty hpcas fails2

def c4wtask : MoveTask :=
  { tid := 0, ch := 0, target := 90, cancelRequested := false, finished := false,
    started := true, cur := 10, dps := 90 }

def c4wctrl : Ctrl :=
  { channelMap := [(0, (64, 0))], pwmFreq := 50, i2cOpen := true,
    pcas := [64], angles := [(0, 0)], speeds := [], moveTasks := [(0, 0)],
    tasks := [c4wtask], nextTid := 1 }

/-- C4 witness: a failure-free shutdown of a concrete controller requests
cancellation of its recorded motion task, throws nothing, zeroes its
channel, de-initializes its board, closes the bus, and a second call is
safe. -/
theorem claim4_witness :
    (stop c4wctrl (fun _ => false)).2.2 = false ∧
    { c4wtask with cancelRequested := true } ∈ (stop c4wctrl (fun _ => false)).1.tasks ∧
    Ev.write 0 0 false ∈ (stop c4wctrl (fun _ => false)).2.1 ∧
    Ev.deinitBoard 64 ∈ (stop c4wctrl (fun _ => false)).2.1 ∧
    Ev.busClose ∈ (stop c4wctrl (fun _ => false)).2.1 ∧
    (stop (stop c4wctrl (fun _ => false)).1 (fun _ => false)).2.2 = false := by
  have h := claim4 c4wctrl (fun _ => false)
  have hok : ∀ ch ∈ channelsOf c4wctrl, (fun _ : ℕ => false) ch = false :=
    fun _ _ => rfl
  exact ⟨(h.2.2.2.2.1 hok).1,
    h.2.2.1 c4wtask (List.mem_singleton_self _) rfl ⟨(0, 0), by decide, rfl⟩,
    (h.2.2.2.2.1 hok).2.2.1 (by decide) 0 (by decide),
    h.2.2.2.1 64 (by decide),
    (h.2.2.2.2.1 hok).2.2.2 rfl,
    h.2.2.2.2.2.2 (fun _ => false)⟩

/-! ### Claim C5: set_speed semantics and when a speed change takes effect -/

def c5s0 : Ctrl :=
  { channelMap := [(0, (64, 0))], pwmFreq := 50, i2cOpen := true, pcas := [64],
    angles := [(0, 0)], speeds := [(0, 90)] }

def c5s1 : Ctrl := ((set_angle c5s0 0 90).getD (c5s0, 0)).1

def c5s2 : Ctrl := (taskStep c5s1 0 false).1

def c5s3 : Ctrl := ((set_speed c5s2 0 10).getD (c5s2, 0)).1

/-- C5 counterexample: start a move 0° → 90° at 90°/s, run one step (the
task writes 1.8° and has captured `dps = 90`), then set the speed to 10°/s.
The source's next step still advances by 1.8° (to 3.6°), while a task that
read the speed live — `specTaskStepLive`, the spec's words — would advance
by 0.2° (to 2.0°).  So a speed change does not alter the in-flight move. -/
theorem claim5_counterexample :
    List.lookup 0 (taskStep c5s3 0 false).1.angles = some (18 / 5 : ℚ) ∧
    List.lookup 0 (specTaskStepLive c5s3 0 false).1.angles = some (2 : ℚ) ∧
    (18 / 5 : ℚ) ≠ 2 := by
  refine ⟨?_, ?_, by norm_num⟩ <;>
    norm_num [c5s3, c5s2, c5s1, c5s0, set_angle, set_speed, taskStep,
      specTaskStepLive, validChannel, clamp_angle, _cancel_move, cancelCore,
      findTask, setTask, runIter, moveStep, effDps, rabs, dt, eps,
      SPEED_MIN_DPS, SPEED_MAX_DPS, SPEED_DEF_DPS, CENTER_ANGLE, MAX_DEG,
      MIN_DEG, removeKey, List.lookup, max_def, min_def, List.find?]

/-- The behaviour of a started task is independent of the stored speed map:
stepping the task in a state whose speeds were replaced by `s'` gives the
same events and the same state except for the speeds field. -/
theorem taskStep_speeds_frame (c : Ctrl) (tid : ℕ) (f : Bool) (t : MoveTask)
    (hf : findTask c.tasks tid = some t) (hst : t.started = true)
    (s' : List (ℕ × ℚ)) :
    taskStep { c with speeds := s' } tid f =
      ({ (taskStep c tid f).1 with speeds := s' }, (taskStep c tid f).2) := by
  unfold taskStep
  have hts : ({ c with speeds := s' } : Ctrl).tasks = c.tasks := rfl
  rw [hts, hf]
  by_cases h1 : t.finished = true
  · simp only [h1, if_true]
  · by_cases h2 : t.cancelRequested = true
    · simp only [h1, h2, if_false, if_true, Bool.false_eq_true]
    · simp only [h1, h2, hst, if_false, if_true, Bool.false_eq_true]
      unfold runIter
      by_cases h3 : f = true
      · simp only [h3, if_true]
        unfold faultPath
        have hcm : ({ c with speeds := s' } : Ctrl).channelMap = c.channelMap := rfl
        rw [hcm]
        rcases hm : (List.lookup t.ch c.channelMap).map Prod.fst with _ | addr
        · rfl
        · simp only [show ({ c with speeds := s' } : Ctrl).i2cOpen = c.i2cOpen from rfl,
            show ({ c with speeds := s' } : Ctrl).pcas = c.pcas from rfl]
          by_cases h4 : c.i2cOpen = true
          · by_cases h5 : addr ∈ c.pcas
            · simp [h4, h5]
            · simp [h4, h5]
          · simp [h4]
      · simp [h3]

/-- C5 amended: `set_speed` clamps to `[SPEED_MIN_DPS, SPEED_MAX_DPS]` and
stores exactly the clamped value; but the paced task reads the configured
speed once, when its body starts — after that its behaviour is independent
of the speeds map, so a speed change takes effect only from the next move,
not on the in-flight one. -/
theorem claim5 :
    (∀ (c : Ctrl) (ch : ℕ) (v : ℚ), validChannel c ch = true →
      set_speed c ch v =
        some ({ c with speeds := (ch, max SPEED_MIN_DPS (min SPEED_MAX_DPS v)) :: c.speeds },
          max SPEED_MIN_DPS (min SPEED_MAX_DPS v)) ∧
      List.lookup ch
        ({ c with speeds := (ch, max SPEED_MIN_DPS (min SPEED_MAX_DPS v)) :: c.speeds } : Ctrl).speeds =
        some (max SPEED_MIN_DPS (min SPEED_MAX_DPS v))) ∧
    (∀ (c : Ctrl) (tid : ℕ) (f : Bool) (t : MoveTask) (s' : List (ℕ × ℚ)),
      findTask c.tasks tid = some t → t.started = true →
      taskStep { c with speeds := s' } tid f =
        ({ (taskStep c tid f).1 with speeds := s' }, (taskStep c tid f).2)) := by
  constructor
  · intro c ch v h
    unfold set_speed
    rw [if_pos h]
    exact ⟨rfl, lookup_cons_self ch _ c.speeds⟩
  · intro c tid f t s' hf hst
    exact taskStep_speeds_frame c tid f t hf hst s'

def c5w : Ctrl :=
  { channelMap := [(0, (64, 0))], pwmFreq := 50, i2cOpen := true, pcas := [64],
    angles := [(0, 0)], speeds := [(0, 90)] }

/-- C5 witness: `set_speed` with the over-range request 400°/s stores the
clamp 270, not the raw input. -/
theorem claim5_witness :
    validChannel c5w 0 = true ∧
    set_speed c5w 0 400 =
      some ({ c5w with speeds := (0, max SPEED_MIN_DPS (min SPEED_MAX_DPS 400)) :: c5w.speeds },
        max SPEED_MIN_DPS (min SPEED_MAX_DPS 400)) ∧
    max SPEED_MIN_DPS (min SPEED_MAX_DPS (400 : ℚ)) = 270 :=
  ⟨by decide, (claim5.1 c5w 0 400 (by decide)).1,
    by norm_num [SPEED_MIN_DPS, SPEED_MAX_DPS, max_def, min_def]⟩

/-! ### Claim C7: termination of the paced loop -/

/-- C7: the paced loop terminates for every start angle, target and
configured speed, because the effective speed is positive (a configured
speed ≤ 0 falls back to `SPEED_MIN_DPS`); concretely, the move 0° → 90° at
90°/s with the 20 ms step and 0.2° epsilon converges in exactly 51 loop
iterations (50 paced 20 ms steps ≈ 1 s, within the ±2-step tolerance) and
the last write before termination is exactly 90°, within epsilon of the
target. -/
theorem claim7 :
    (∀ dps cur target : ℚ, ∃ n, moveRun (effDps dps) target cur n = true) ∧
    (∀ dps : ℚ, dps ≤ 0 → effDps dps = SPEED_MIN_DPS) ∧
    (∀ dps : ℚ, 0 < effDps dps) ∧
    moveRun 90 90 0 51 = true ∧
    moveRun 90 90 0 50 = false ∧
    (moveWrites 90 90 0 51).getLast? = some 90 ∧
    rabs (90 - 90) ≤ eps := by
  refine ⟨moveRun_terminates, ?_, effDps_pos, ?_, ?_, ?_, by norm_num [rabs, eps]⟩
  · intro dps h
    simp [effDps, h]
  · norm_num [moveRun, moveStep, rabs, dt, eps]
  · norm_num [moveRun, moveStep, rabs, dt, eps]
  · norm_num [moveWrites, moveStep, rabs, dt, eps]

/-! ### Claim C1: task replacement discipline

The task invariant: task ids are below the id counter and unique, and every
live (neither cancel-requested nor finished) task is the one recorded in
`_move_tasks` for its channel.  `set_angle` preserves it by cancelling the
recorded task before registering the replacement. -/

/-- A task that can still write: neither cancel-requested nor finished. -/
def liveFor (t : MoveTask) : Prop := t.cancelRequested = false ∧ t.finished = false

def TasksInv (ts : List MoveTask) (m : List (ℕ × ℕ)) (nt : ℕ) : Prop :=
  (∀ t ∈ ts, t.tid < nt) ∧
  (∀ t ∈ ts, ∀ u ∈ ts, t.tid = u.tid → t = u) ∧
  (∀ t ∈ ts, liveFor t → List.lookup t.ch m = some t.tid)

def Inv (c : Ctrl) : Prop := TasksInv c.tasks c.moveTasks c.nextTid

theorem lookup_removeKey_self (k : ℕ) :
    ∀ m : List (ℕ × ℕ), List.lookup k (removeKey k m) = none := by
  intro m
  induction m with
  | nil => rfl
  | cons p rest ih =>
      rcases p with ⟨a, b⟩
      unfold removeKey at ih ⊢
      rw [List.filter_cons]
      by_cases h : a = k
      · rw [if_neg (by simp [h])]
        exact ih
      · rw [if_pos (by simp [h]), List.lookup_cons]
        have hb : (k == a) = false := beq_eq_false_iff_ne.mpr (Ne.symm h)
        rw [hb]
        exact ih

theorem lookup_removeKey_ne {k k' : ℕ} (h : k' ≠ k) :
    ∀ m : List (ℕ × ℕ), List.lookup k' (removeKey k m) = List.lookup k' m := by
  intro m
  induction m with
  | nil => rfl
  | cons p rest ih =>
      rcases p with ⟨a, b⟩
      unfold removeKey at ih ⊢
      rw [List.filter_cons]
      by_cases ha : a = k
      · rw [if_neg (by simp [ha])]
        rw [ih, List.lookup_cons]
        have hb : (k' == a) = false := beq_eq_false_iff_ne.mpr (ha ▸ h)
        rw [hb]
      · rw [if_pos (by simp [ha]), List.lookup_cons, List.lookup_cons]
        by_cases hk : k' = a
        · have hb : (k' == a) = true := beq_iff_eq.mpr hk
          rw [hb]
        · have hb : (k' == a) = false := beq_eq_false_iff_ne.mpr hk
          rw [hb, ih]

theorem lookup_mem {k v : ℕ} {m : List (ℕ × ℕ)}
    (h : List.lookup k m = some v) : (k, v) ∈ m := by
  rcases List.lookup_eq_some_iff.mp h with ⟨l₁, l₂, rfl, _⟩
  exact List.mem_append_right l₁ (List.mem_cons_self _ _)

theorem setTask_bound {ts : List MoveTask} {nt : ℕ}
    (h1 : ∀ t ∈ ts, t.tid < nt) {t0 t' : MoveTask}
    (h0 : t0 ∈ ts) (htid : t'.tid = t0.tid) :
    ∀ u ∈ setTask ts t', u.tid < nt := by
  intro u hu
  rcases mem_setTask hu with rfl | hu'
  · rw [htid]; exact h1 t0 h0
  · exact h1 u hu'

theorem setTask_unique {ts : List MoveTask}
    (h2 : ∀ t ∈ ts, ∀ u ∈ ts, t.tid = u.tid → t = u) (t' : MoveTask) :
    ∀ u ∈ setTask ts t', ∀ v ∈ setTask ts t', u.tid = v.tid → u = v := by
  intro u hu v hv huv
  by_cases hut : u.tid = t'.tid
  · rw [setTask_tid_eq hu hut, setTask_tid_eq hv (huv ▸ hut)]
  · have hvt : v.tid ≠ t'.tid := huv ▸ hut
    rcases mem_setTask hu with rfl | hu'
    · exact absurd rfl hut
    · rcases mem_setTask hv with rfl | hv'
      · exact absurd rfl hvt
      · exact h2 u hu' v hv' huv

/-- Replacing a found task by a variant with the same tid and channel whose
liveness implies the original's preserves the task invariant. -/
theorem TasksInv_setTask {ts : List MoveTask} {m : List (ℕ × ℕ)} {nt tid : ℕ}
    {t t' : MoveTask} (hInv : TasksInv ts m nt) (hf : findTask ts tid = some t)
    (htid : t'.tid = t.tid) (hch : t'.ch = t.ch)
    (hlive : liveFor t' → liveFor t) :
    TasksInv (setTask ts t') m nt := by
  obtain ⟨h1, h2, h3⟩ := hInv
  have htmem := findTask_mem hf
  refine ⟨setTask_bound h1 htmem htid, setTask_unique h2 t', ?_⟩
  intro u hu hl
  by_cases hut : u.tid = t'.tid
  · have hu' := setTask_tid_eq hu hut
    subst hu'
    have hlt := hlive hl
    rw [hch, htid]
    exact h3 t htmem hlt
  · rcases mem_setTask hu with rfl | hu'
    · exact absurd rfl hut
    · exact h3 u hu' hl

theorem liveFor_not_cancelled {t : MoveTask} (h : t.cancelRequested = true) :
    ¬ liveFor t := fun hl => by rw [hl.1] at h; exact Bool.noConfusion h

theorem liveFor_not_finished {t : MoveTask} (h : t.finished = true) :
    ¬ liveFor t := fun hl => by rw [hl.2] at h; exact Bool.noConfusion h

/-- `_cancel_move` preserves the task invariant. -/
theorem TasksInv_cancelCore {ts : List MoveTask} {m : List (ℕ × ℕ)} {nt : ℕ}
    (hInv : TasksInv ts m nt) (ch : ℕ) :
    TasksInv (cancelCore ts m ch).1 (cancelCore ts m ch).2 nt := by
  obtain ⟨h1, h2, h3⟩ := hInv
  unfold cancelCore
  split
  · exact ⟨h1, h2, h3⟩
  next tid hl =>
    split
    next hf =>
      refine ⟨h1, h2, ?_⟩
      intro u hu hlu
      have hreg := h3 u hu hlu
      by_cases hch : u.ch = ch
      · rw [hch, hl] at hreg
        have htid : u.tid = tid := (Option.some.inj hreg).symm
        exact absurd htid (findTask_eq_none hf u hu)
      · rw [lookup_removeKey_ne hch m]
        exact hreg
    next t hf =>
      by_cases hfin : t.finished = true
      · rw [if_pos hfin]
        refine ⟨h1, h2, ?_⟩
        intro u hu hlu
        have hreg := h3 u hu hlu
        by_cases hch : u.ch = ch
        · rw [hch, hl] at hreg
          have heq : u = t := h2 u hu t (findTask_mem hf)
            ((Option.some.inj hreg).symm.trans (findTask_tid hf).symm)
          rw [heq] at hlu
          exact absurd hlu (liveFor_not_finished hfin)
        · rw [lookup_removeKey_ne hch m]
          exact hreg
      · rw [if_neg hfin]
        have htmem := findTask_mem hf
        refine ⟨setTask_bound h1 htmem rfl, setTask_unique h2 _, ?_⟩
        intro u hu hlu
        by_cases hut : u.tid = ({ t with cancelRequested := true } : MoveTask).tid
        · have heq := setTask_tid_eq hu hut
          rw [heq] at hlu
          exact absurd hlu (liveFor_not_cancelled rfl)
        · rcases mem_setTask hu with rfl | hu'
          · exact absurd rfl hut
          · have hreg := h3 u hu' hlu
            by_cases hch : u.ch = ch
            · rw [hch, hl] at hreg
              have htid : u.tid = tid := (Option.some.inj hreg).symm
              exact absurd (htid.trans (findTask_tid hf).symm) hut
            · rw [lookup_removeKey_ne hch m]
              exact hreg

theorem Inv_cancel_move {c : Ctrl} (hInv : Inv c) (ch : ℕ) :
    Inv (_cancel_move c ch) :=
  TasksInv_cancelCore hInv ch

theorem cancelCore_lookup_self (ts : List MoveTask) (m : List (ℕ × ℕ)) (ch : ℕ) :
    List.lookup ch (cancelCore ts m ch).2 = none := by
  unfold cancelCore
  split
  next hl => exact hl
  next tid hl =>
    split
    next hf => exact lookup_removeKey_self ch m
    next t hf =>
      by_cases hfin : t.finished = true
      · rw [if_pos hfin]; exact lookup_removeKey_self ch m
      · rw [if_neg hfin]; exact lookup_removeKey_self ch m

theorem no_live_of_lookup_none {ts : List MoveTask} {m : List (ℕ × ℕ)} {nt ch : ℕ}
    (hInv : TasksInv ts m nt) (h : List.lookup ch m = none) :
    ∀ u ∈ ts, u.ch = ch → ¬ liveFor u := by
  intro u hu hch hl
  have := hInv.2.2 u hu hl
  rw [hch, h] at this
  exact Option.noConfusion this

/-- `set_angle` preserves the task invariant: the fresh task is registered
and every other task for the channel has been cancelled. -/
theorem Inv_set_angle {c c' : Ctrl} {ch : ℕ} {tgt r : ℚ}
    (hInv : Inv c) (h : set_angle c ch tgt = some (c', r)) : Inv c' := by
  unfold set_angle at h
  split_ifs at h with hv
  simp only [Option.some.injEq, Prod.mk.injEq] at h
  obtain ⟨hc', _⟩ := h
  subst hc'
  have hInv1 : Inv (_cancel_move c ch) := Inv_cancel_move hInv ch
  obtain ⟨h1, h2, h3⟩ := hInv1
  have hnolive : ∀ u ∈ (_cancel_move c ch).tasks, u.ch = ch → ¬ liveFor u :=
    no_live_of_lookup_none ⟨h1, h2, h3⟩ (cancelCore_lookup_self c.tasks c.moveTasks ch)
  refine ⟨?_, ?_, ?_⟩
  · intro u hu
    rcases List.mem_append.mp hu with hu' | hu'
    · exact Nat.lt_succ_of_lt (h1 u hu')
    · rcases List.mem_singleton.mp hu' with rfl
      exact Nat.lt_succ_self _
  · intro u hu v hv huv
    rcases List.mem_append.mp hu with hu' | hu' <;>
      rcases List.mem_append.mp hv with hv' | hv'
    · exact h2 u hu' v hv' huv
    · rcases List.mem_singleton.mp hv' with rfl
      exact absurd (huv ▸ h1 u hu') (Nat.lt_irrefl _)
    · rcases List.mem_singleton.mp hu' with rfl
      exact absurd (huv ▸ h1 v hv') (Nat.lt_irrefl _)
    · rw [List.mem_singleton.mp hu', List.mem_singleton.mp hv']
  · intro u hu hl
    rcases List.mem_append.mp hu with hu' | hu'
    · have hch : u.ch ≠ ch := fun hch => hnolive u hu' hch hl
      rw [lookup_cons_ne hch]
      exact h3 u hu' hl
    · rcases List.mem_singleton.mp hu' with rfl
      exact lookup_cons_self ch _ _

/-- `runIter` preserves the task invariant (`m` and `nt` untouched, the
found task replaced by a same-tid same-channel variant). -/
theorem Inv_runIter {c : Ctrl} {tid : ℕ} {t t0 : MoveTask}
    (hInv : Inv c) (hf : findTask c.tasks tid = some t)
    (htid : t0.tid = t.tid) (hch : t0.ch = t.ch)
    (hcan : t0.cancelRequested = t.cancelRequested)
    (hfin : t.finished = false) (f : Bool) :
    Inv (runIter c t0 f).1 := by
  unfold runIter
  by_cases hwf : f = true
  · rw [if_pos hwf]
    unfold faultPath
    split
    · exact TasksInv_setTask hInv hf htid hch (fun hl => absurd hl.2 (by simp))
    · split_ifs <;>
        exact TasksInv_setTask hInv hf htid hch (fun hl => absurd hl.2 (by simp))
  · rw [if_neg hwf]
    exact TasksInv_setTask hInv hf htid hch
      (fun hl => ⟨hcan ▸ hl.1, hfin⟩)

/-- `taskStep` preserves the task invariant. -/
theorem Inv_taskStep {c : Ctrl} (hInv : Inv c) (tid : ℕ) (f : Bool) :
    Inv (taskStep c tid f).1 := by
  unfold taskStep
  split
  · exact hInv
  next t hf =>
    split_ifs with h1 h2 h3
    · exact hInv
    · exact TasksInv_setTask hInv hf rfl rfl (fun hl => absurd hl.2 (by simp))
    · exact Inv_runIter hInv hf rfl rfl rfl (by simpa using h1) f
    · dsimp only
      refine Inv_runIter hInv hf ?_ ?_ ?_ (by simpa using h1) f <;> rfl

/-- `stop` preserves the task invariant (afterwards no task is live). -/
theorem Inv_stop {c : Ctrl} (hInv : Inv c) (fails : ℕ → Bool) :
    Inv (stop c fails).1 := by
  obtain ⟨h1, h2, h3⟩ := hInv
  have hts : TasksInv
      (c.tasks.map fun t =>
        if (c.moveTasks.any fun p => p.2 == t.tid) && !t.finished then
          { t with cancelRequested := true }
        else t)
      ([] : List (ℕ × ℕ)) c.nextTid := by
    refine ⟨?_, ?_, ?_⟩
    · intro u hu
      rcases List.mem_map.mp hu with ⟨v, hv, rfl⟩
      split_ifs <;> exact h1 v hv
    · intro u hu v hv huv
      rcases List.mem_map.mp hu with ⟨u0, hu0, rfl⟩
      rcases List.mem_map.mp hv with ⟨v0, hv0, rfl⟩
      have htid : u0.tid = v0.tid := by
        revert huv
        split_ifs <;> exact id
      rw [h2 u0 hu0 v0 hv0 htid]
    · intro u hu hl
      rcases List.mem_map.mp hu with ⟨v, hv, rfl⟩
      by_cases hg : ((c.moveTasks.any fun p => p.2 == v.tid) && !v.finished) = true
      · rw [if_pos hg] at hl
        exact absurd hl.1 (by simp)
      · rw [if_neg hg] at hl
        have hreg := h3 v hv hl
        have hany : (c.moveTasks.any fun p => p.2 == v.tid) = true :=
          List.any_eq_true.mpr ⟨(v.ch, v.tid), lookup_mem hreg, by simp⟩
        have hnf : (!v.finished) = true := by rw [hl.2]; rfl
        exact absurd (by rw [hany, hnf]; rfl) hg
  simp only [stop]
  split_ifs <;> exact hts

theorem Inv_foldl_cancel :
    ∀ (chs : List ℕ) (c : Ctrl), Inv c → Inv (chs.foldl _cancel_move c) := by
  intro chs
  induction chs with
  | nil => intro c h; exact h
  | cons ch rest ih =>
      intro c h
      rw [List.foldl_cons]
      exact ih _ (Inv_cancel_move h ch)

theorem Inv_release_all {c : Ctrl} (hInv : Inv c) : Inv (release_all c).1 :=
  Inv_foldl_cancel (channelsOf c) c hInv

theorem Inv_start {c : Ctrl} (hInv : Inv c) : Inv (start c).1 := hInv

theorem Inv_set_speed {c c' : Ctrl} {ch : ℕ} {v r : ℚ}
    (hInv : Inv c) (h : set_speed c ch v = some (c', r)) : Inv c' := by
  unfold set_speed at h
  split_ifs at h
  simp only [Option.some.injEq, Prod.mk.injEq] at h
  obtain ⟨hc', _⟩ := h
  subst hc'
  exact hInv

/-- The freshly constructed controller (`ServoController()`). -/
def initCtrl (m : List (ℕ × (ℕ × ℕ))) (freq : ℚ) : Ctrl :=
  { channelMap := m, pwmFreq := freq }

theorem Inv_init (m : List (ℕ × (ℕ × ℕ))) (freq : ℚ) : Inv (initCtrl m freq) :=
  ⟨fun t ht => absurd ht (List.not_mem_nil t),
   fun t ht => absurd ht (List.not_mem_nil t),
   fun t ht => absurd ht (List.not_mem_nil t)⟩

/-- The controller states reachable through the public operations and the
event-loop steps. -/
inductive Reach : Ctrl → Prop
  | init (m : List (ℕ × (ℕ × ℕ))) (freq : ℚ) : Reach (initCtrl m freq)
  | startStep {c : Ctrl} : Reach c → Reach (start c).1
  | setAngleStep {c c' : Ctrl} {ch : ℕ} {tgt r : ℚ} :
      Reach c → set_angle c ch tgt = some (c', r) → Reach c'
  | setSpeedStep {c c' : Ctrl} {ch : ℕ} {v r : ℚ} :
      Reach c → set_speed c ch v = some (c', r) → Reach c'
  | taskStepStep {c : Ctrl} (tid : ℕ) (f : Bool) : Reach c → Reach (taskStep c tid f).1
  | releaseStep {c : Ctrl} : Reach c → Reach (release_all c).1
  | stopStep {c : Ctrl} (fails : ℕ → Bool) : Reach c → Reach (stop c fails).1

theorem Inv_of_Reach {c : Ctrl} (h : Reach c) : Inv c := by
  induction h with
  | init m freq => exact Inv_init m freq
  | startStep _ ih => exact Inv_start ih
  | setAngleStep _ hs ih => exact Inv_set_angle ih hs
  | setSpeedStep _ hs ih => exact Inv_set_speed ih hs
  | taskStepStep tid f _ ih => exact Inv_taskStep ih tid f
  | releaseStep _ ih => exact Inv_release_all ih
  | stopStep fails _ ih => exact Inv_stop ih fails

def c1task : MoveTask :=
  { tid := 0, ch := 0, target := 90, cancelRequested := false, finished := false,
    started := true, cur := 10, dps := 90 }

def c1ctrl : Ctrl :=
  { channelMap := [(0, (64, 0))], pwmFreq := 50, i2cOpen := true, pcas := [64],
    angles := [(0, 10)], speeds := [(0, 90)], moveTasks := [(0, 0)],
    tasks := [c1task], nextTid := 1 }

/-- C1 counterexample: `set_angle` does not wait for the superseded task to
stop.  On a controller with a running (started, unfinished) task, calling
`set_angle` leaves the old task unfinished (merely cancel-requested) at the
very instant the replacement task is already registered — there is no
await-stop between `Task.cancel()` and `asyncio.create_task`. -/
theorem claim1_counterexample :
    (set_angle c1ctrl 0 200).isSome = true ∧
    (findTask ((set_angle c1ctrl 0 200).getD (c1ctrl, 0)).1.tasks 0).map
      MoveTask.finished = some false ∧
    (findTask ((set_angle c1ctrl 0 200).getD (c1ctrl, 0)).1.tasks 0).map
      MoveTask.cancelRequested = some true ∧
    List.lookup 0 ((set_angle c1ctrl 0 200).getD (c1ctrl, 0)).1.moveTasks = some 1 := by
  exact ⟨rfl, rfl, rfl, rfl⟩

/-- C1 amended: `set_angle` requests cancellation of the channel's recorded
unfinished task and immediately registers the replacement without awaiting
the superseded task; nevertheless, in every reachable controller state a
channel has at most one live (uncancelled, unfinished) motion task, a
cancel-requested task emits nothing — in particular no bus write — when the
event loop next schedules it, and the newest command wins: `set_angle`
registers the fresh task id and returns the newly clamped target. -/
theorem claim1 :
    (∀ c : Ctrl, Reach c → ∀ t ∈ c.tasks, ∀ u ∈ c.tasks,
      liveFor t → liveFor u → t.ch = u.ch → t = u) ∧
    (∀ (c : Ctrl) (tid : ℕ) (f : Bool) (t : MoveTask),
      findTask c.tasks tid = some t → t.cancelRequested = true →
      (taskStep c tid f).2 = []) ∧
    (∀ (c : Ctrl) (ch : ℕ) (tgt : ℚ) (c' : Ctrl) (r : ℚ),
      set_angle c ch tgt = some (c', r) →
      List.lookup ch c'.moveTasks = some c.nextTid ∧
      r = clamp_angle tgt ∧
      (∀ (tid0 : ℕ) (t0 : MoveTask), List.lookup ch c.moveTasks = some tid0 →
        findTask c.tasks tid0 = some t0 → t0.finished = false →
        findTask c'.tasks tid0 = some { t0 with cancelRequested := true })) := by
  refine ⟨?_, ?_, ?_⟩
  · intro c hreach t ht u hu hlt hlu hch
    obtain ⟨_, h2, h3⟩ := Inv_of_Reach hreach
    have e1 := h3 t ht hlt
    have e2 := h3 u hu hlu
    rw [hch] at e1
    rw [e1] at e2
    exact h2 t ht u hu (Option.some.inj e2)
  · intro c tid f t hf hcan
    unfold taskStep
    rw [hf]
    by_cases h1 : t.finished = true
    · simp [h1]
    · simp [h1, hcan]
  · intro c ch tgt c' r h
    unfold set_angle at h
    split_ifs at h with hv
    simp only [Option.some.injEq, Prod.mk.injEq] at h
    obtain ⟨hc', hr⟩ := h
    subst hc'
    refine ⟨lookup_cons_self ch _ _, hr.symm, ?_⟩
    intro tid0 t0 hm0 hf0 hfin0
    have ht0 : t0.tid = tid0 := findTask_tid hf0
    have htid : ({ t0 with cancelRequested := true } : MoveTask).tid = tid0 := ht0
    have hct : (_cancel_move c ch).tasks =
        setTask c.tasks { t0 with cancelRequested := true } := by
      unfold _cancel_move cancelCore
      rw [hm0]
      simp [hf0, hfin0]
    have hfind : findTask (_cancel_move c ch).tasks tid0 =
        some { t0 with cancelRequested := true } := by
      rw [hct]
      exact findTask_setTask hf0 _ htid
    show findTask ((_cancel_move c ch).tasks ++ [_]) tid0 = _
    unfold findTask at hfind ⊢
    rw [List.find?_append, hfind]
    rfl

/-- C1 witness: the replace-and-register conjunct of the theorem applied to
the concrete one-channel controller. -/
theorem claim1_witness :
    List.lookup 0 ((set_angle c1ctrl 0 90).getD (c1ctrl, 0)).1.moveTasks =
      some c1ctrl.nextTid ∧
    clamp_angle 90 = clamp_angle 90 := by
  have h := claim1.2.2 c1ctrl 0 90
    ((set_angle c1ctrl 0 90).getD (c1ctrl, 0)).1 (clamp_angle 90) rfl
  exact ⟨h.1, h.2.1⟩

end ArmVirtual
